import Mathlib

/-!
Verification of the minecraft-bot planning core against its specification.

The development shallowly embeds the program:
* `bot.py` — the agent state (position, inventory, overlay of hypothetical
  world edits), the action generator (move / mine / place rules), action
  application, and the two distance heuristics;
* `search.py` — the generic graph-search engine and its frontier disciplines.

The live world read (`_MINECRAFT.getBlock`, an external remote API) is
modelled as an arbitrary function `V3 → Int` passed explicitly.  The frontier
containers come from `util.py`, which is not part of the repository sources;
they are modelled from the spec: FIFO for breadth-first, and a stable
minimum-priority queue (first pushed, first popped among equal priorities)
for uniform-cost and best-first search.
-/

namespace MCBot

/-- Integer lattice position (the program's `_Vec3`, a hashable `Vec3`). -/
structure V3 where
  x : Int
  y : Int
  z : Int
deriving DecidableEq, Repr

instance : Add V3 := ⟨fun a b => ⟨a.x + b.x, a.y + b.y, a.z + b.z⟩⟩

/-- Block id of air (`block.AIR.id`). -/
def AIR : Int := 0

/-- Block id of water (`block.WATER.id`). -/
def WATER : Int := 8

/-- Block id of lava (`block.LAVA.id`). -/
def LAVA : Int := 10

/-- Block id of bedrock (`block.BEDROCK.id`). -/
def BEDROCK : Int := 7

/-- Maximum fall height `_DROP`. -/
def DROP : Nat := 2

/-- `_DROP_PLUS_1`. -/
def DROP_PLUS_1 : Nat := DROP + 1

/-- Lookup in a Python-dict modelled as an association list. -/
def dictGet {K V : Type} [DecidableEq K] (l : List (K × V)) (k : K) : Option V :=
  match l with
  | [] => none
  | (k0, v0) :: rest => if k0 = k then some v0 else dictGet rest k

/-- Lookup with default (Python `dict.get(k, d)` flavour). -/
def dictGetD {K V : Type} [DecidableEq K] (l : List (K × V)) (k : K) (d : V) : V :=
  (dictGet l k).getD d

/-- Python `k in dict`. -/
def dictContains {K V : Type} [DecidableEq K] (l : List (K × V)) (k : K) : Bool :=
  (dictGet l k).isSome

/-- Python `dict[k] = v`: update the entry in place, or append a new one. -/
def dictSet {K V : Type} [DecidableEq K] (l : List (K × V)) (k : K) (v : V) :
    List (K × V) :=
  match l with
  | [] => [(k, v)]
  | (k0, v0) :: rest => if k0 = k then (k0, v) :: rest else (k0, v0) :: dictSet rest k v

/-- State of a simulated agent (`_ImaginaryBot`): position `_pos`, inventory
`_inventory` (block id ↦ strictly positive count), and overlay `_changes`
(position ↦ block id of a hypothetical edit). -/
structure BotS where
  pos : V3
  inv : List (Int × Nat)
  changes : List (V3 × Int)
deriving DecidableEq, Repr

/-- `_ImaginaryBot._get_block`: the overlay `_changes` is consulted first; on a
miss the live world (`_MINECRAFT.getBlock`) is read. -/
def getBlock (live : V3 → Int) (st : BotS) (p : V3) : Int :=
  match dictGet st.changes p with
  | some b => b
  | none => live p

/-- `_ImaginaryBot._set_block`: record the edit in the overlay only. -/
def setBlock (st : BotS) (p : V3) (b : Int) : BotS :=
  { st with changes := dictSet st.changes p b }

/-- `_adj_dirs()`: the four lateral unit directions. -/
def adjDirs : List V3 := [⟨1, 0, 0⟩, ⟨-1, 0, 0⟩, ⟨0, 0, 1⟩, ⟨0, 0, -1⟩]

/-- The program's actions.  The source represents an action as a dictionary
holding a function name plus args and kwargs, dispatched by reflection; here
it is a closed tagged variant with the same five function targets. -/
inductive Action where
  | move (target : V3)
  | moveUp (exclude : Option Int)
  | moveDown
  | mine (target : V3)
  | place (loc : V3) (exclude : Option Int) (block : Option Int)
deriving DecidableEq, Repr

/-- Errors raised by the bot.  The spec's `EmptyInventoryError` covers both
raise sites of `_place` (empty inventory, and only-the-excluded-block).
`keyError` models Python's `KeyError` when a forced block id is absent from
the inventory. -/
inductive BotErr where
  | emptyInventory
  | keyError
deriving DecidableEq, Repr

/-- `_GenericBot._surrounded`: all four lateral neighbours at body level are
water. -/
def surrounded (live : V3 → Int) (st : BotS) : Bool :=
  adjDirs.all fun d => getBlock live st (st.pos + d) == WATER

/-- `_GenericBot._add_to_inv`: increment an existing entry or insert the key
with count 1. -/
def addToInv (inv : List (Int × Nat)) (b : Int) : List (Int × Nat) :=
  match inv with
  | [] => [(b, 1)]
  | (k, v) :: rest => if k = b then (k, v + 1) :: rest else (k, v) :: addToInv rest b

/-- The inventory decrement of `_place`: delete the key when its count is 1,
otherwise decrease it by one. -/
def invRemoveOne (inv : List (Int × Nat)) (b : Int) : List (Int × Nat) :=
  match inv with
  | [] => []
  | (k, v) :: rest =>
    if k = b then (if v = 1 then rest else (k, v - 1) :: rest)
    else (k, v) :: invRemoveOne rest b

/-- The block-selection loop of `_place` with `block=None`: the first
inventory key different from `exclude` (`None` excludes nothing). -/
def firstKeyNe (inv : List (Int × Nat)) (exclude : Option Int) : Option Int :=
  match inv with
  | [] => none
  | (k, _) :: rest => if some k ≠ exclude then some k else firstKeyNe rest exclude

/-- `_GenericBot._place` on a simulated bot.  Mirrors the source statement by
statement; the second component records a raised exception, and the first
component is the state at the moment of the raise (the raises occur before
any mutation, so the original state is returned on the error paths). -/
def place (st : BotS) (loc : V3) (exclude blk : Option Int) : BotS × Option BotErr :=
  if st.inv = [] then (st, some BotErr.emptyInventory)
  else
    match (match blk with | some b => some b | none => firstKeyNe st.inv exclude) with
    | none => (st, some BotErr.emptyInventory)
    | some b =>
      if dictContains st.inv b then
        ({ st with inv := invRemoveOne st.inv b, changes := dictSet st.changes loc b },
          none)
      else (st, some BotErr.keyError)

/-- `_GenericBot._move` on a simulated bot: update the position only. -/
def moveTo (st : BotS) (p : V3) : BotS := { st with pos := p }

/-- `_GenericBot._move_down`: read the block below, add it to the inventory
unless it is water, then move down. -/
def moveDown (live : V3 → Int) (st : BotS) : BotS × Option BotErr :=
  let newPos := st.pos + ⟨0, -1, 0⟩
  let b := getBlock live st newPos
  let st1 := if b ≠ WATER then { st with inv := addToInv st.inv b } else st
  (moveTo st1 newPos, none)

/-- `_GenericBot._move_up`: move up, then place a block below (which may
raise). -/
def moveUp (st : BotS) (exclude : Option Int) : BotS × Option BotErr :=
  let st1 := moveTo st (st.pos + ⟨0, 1, 0⟩)
  place st1 (st1.pos + ⟨0, -1, 0⟩) exclude none

/-- Method names defined on `_GenericBot` (transcribed from the class body).
`_mine` invokes the attribute named by `mineInventoryCall`, which is not
among them — in the source every mine raises `AttributeError`. -/
def genericBotMethodNames : List String :=
  ["__init__", "take_action", "take_actions", "get_pos", "get_legal_actions",
   "contains", "_get_block", "_place", "_move_down", "_add_to_inv", "_move_up",
   "_mine", "_get_move_actions", "_side_moves", "_surrounded",
   "_get_mine_actions", "_get_placement_actions", "_can_place",
   "_has_blocks_to_place", "_set_block", "_move"]

/-- The attribute name `_mine` looks up to add the mined block to the
inventory (source line `self.add_to_inv(block)`). -/
def mineInventoryCall : String := "add_to_inv"

/-- `_GenericBot._mine` as evidently intended (`self._add_to_inv(block)`):
read the block, add one unit of it to the inventory, set the cell to air.
The source as written calls the undefined attribute `add_to_inv` and raises
`AttributeError` instead (see `claim8_mine_effect`). -/
def mineI (live : V3 → Int) (st : BotS) (loc : V3) : BotS × Option BotErr :=
  let b := getBlock live st loc
  ({ st with inv := addToInv st.inv b, changes := dictSet st.changes loc AIR }, none)

/-- The fall loop of `_side_moves`: scan up to `_DROP_PLUS_1` cells downward
for the first non-air cell; land one above it unless it is lava. -/
def fallScan (live : V3 → Int) (st : BotS) : Nat → V3 → List Action
  | 0, _ => []
  | fuel + 1, p =>
    let b := getBlock live st p
    if b ≠ AIR then (if b ≠ LAVA then [Action.move (p + ⟨0, 1, 0⟩)] else [])
    else fallScan live st fuel (p + ⟨0, -1, 0⟩)

/-- The local list `rtn` that the body of `_GenericBot._side_moves` builds.
The source function has no final `return rtn` (bot.py lines 176-215), so
this list is computed and then discarded: the call itself returns Python
`None` (`sideMovesSrc`).  Kept as a record of the statements the body
executes before the value is lost. -/
def sideMoves (live : V3 → Int) (st : BotS) (dir : V3) (canMoveUp : Bool) :
    List Action :=
  let basePos := st.pos + dir
  let baseBlock := getBlock live st basePos
  let climb :=
    if canMoveUp ∧ ¬(baseBlock = AIR ∨ baseBlock = LAVA ∨ baseBlock = WATER) ∧
        (getBlock live st (basePos + ⟨0, 1, 0⟩) = AIR ∨
          getBlock live st (basePos + ⟨0, 1, 0⟩) = WATER) ∧
        (getBlock live st (basePos + ⟨0, 2, 0⟩) = AIR ∨
          getBlock live st (basePos + ⟨0, 2, 0⟩) = WATER)
    then [Action.move (basePos + ⟨0, 1, 0⟩)] else []
  let lateral :=
    if (getBlock live st basePos = AIR ∨ getBlock live st basePos = WATER) ∧
        (getBlock live st (basePos + ⟨0, 1, 0⟩) = AIR ∨
          getBlock live st (basePos + ⟨0, 1, 0⟩) = WATER)
    then fallScan live st DROP_PLUS_1 (basePos + ⟨0, -1, 0⟩) else []
  climb ++ lateral

/-- Python exceptions raised by the source itself (as opposed to the bot's
own deliberate raises, `BotErr`). -/
inductive PyExc where
  | typeError
deriving DecidableEq, Repr

/-- `_GenericBot._side_moves` as written: the body computes `sideMoves` into
a local variable and then falls off the end of the function — there is no
return statement — so every call returns Python `None`. -/
def sideMovesSrc (live : V3 → Int) (st : BotS) (dir : V3) (canMoveUp : Bool) :
    Option (List Action) :=
  let _ := sideMoves live st dir canMoveUp
  none

/-- The side-move loop of `_get_move_actions`:
`for dir_ in _adj_dirs(): rtn.extend(self._side_moves(dir_, can_move_up))`.
Extending a list with `None` raises TypeError, aborting the loop with the
list accumulated so far. -/
def sideExtendLoop (live : V3 → Int) (st : BotS) (canMoveUp : Bool)
    (rtn : List Action) : List V3 → List Action × Option PyExc
  | [] => (rtn, none)
  | d :: rest =>
    match sideMovesSrc live st d canMoveUp with
    | none => (rtn, some PyExc.typeError)
    | some acts => sideExtendLoop live st canMoveUp (rtn ++ acts) rest

/-- `_GenericBot._get_move_actions` as written: the up-move check (the single
cell two above the feet) and the down-move check run and accumulate into
`rtn`; the loop over the four lateral directions then evaluates
`rtn.extend(self._side_moves(...))`, and since `_side_moves` returns `None`
the first iteration raises TypeError.  The result pairs the list accumulated
at the moment of the raise with the exception. -/
def getMoveActionsSrc (live : V3 → Int) (st : BotS) (exclude : Option Int) :
    List Action × Option PyExc :=
  let canMoveUp : Bool :=
    decide (getBlock live st (st.pos + ⟨0, 2, 0⟩) = AIR ∨
      getBlock live st (st.pos + ⟨0, 2, 0⟩) = WATER)
  let rtn :=
    (if canMoveUp then
        (if surrounded live st then [Action.move (st.pos + ⟨0, 1, 0⟩)]
          else [Action.moveUp exclude])
      else []) ++
    (let hidden := getBlock live st (st.pos + ⟨0, -2, 0⟩)
     if hidden = WATER ∨ ¬(hidden = AIR ∨ hidden = LAVA) then [Action.moveDown]
     else [])
  sideExtendLoop live st canMoveUp rtn adjDirs

/-- `_GenericBot._get_mine_actions`: the cell above the head, and the body and
head cells in each lateral direction, whenever they are not air, water or
lava. -/
def getMineActions (live : V3 → Int) (st : BotS) : List Action :=
  let dontMine (b : Int) : Prop := b = AIR ∨ b = WATER ∨ b = LAVA
  (if dontMine (getBlock live st (st.pos + ⟨0, 2, 0⟩)) then []
    else [Action.mine (st.pos + ⟨0, 2, 0⟩)]) ++
  (adjDirs.flatMap fun d =>
    (if dontMine (getBlock live st (st.pos + d)) then [] else [Action.mine (st.pos + d)]) ++
    (if dontMine (getBlock live st (st.pos + d + ⟨0, 1, 0⟩)) then []
      else [Action.mine (st.pos + d + ⟨0, 1, 0⟩)]))

/-- `_GenericBot.take_action` dispatch, with exceptions propagated. -/
def applyAction (live : V3 → Int) (st : BotS) : Action → BotS × Option BotErr
  | Action.move p => (moveTo st p, none)
  | Action.moveUp ex => moveUp st ex
  | Action.moveDown => moveDown live st
  | Action.mine loc => mineI live st loc
  | Action.place loc ex blk => place st loc ex blk

/-- `_GenericBot.take_actions` (the pacing delay is irrelevant on the
simulated bot): apply the actions in order; an empty list returns at once;
an exception aborts the remainder. -/
def takeActions (live : V3 → Int) (st : BotS) : List Action → BotS × Option BotErr
  | [] => (st, none)
  | a :: rest =>
    match applyAction live st a with
    | (st1, none) => takeActions live st1 rest
    | (st1, some e) => (st1, some e)

/-- `_GenericBot.contains`: membership of the block id in the inventory. -/
def contains (st : BotS) (b : Int) : Bool := dictContains st.inv b

/-- Well-formedness of an inventory dict: keys are distinct and every stored
count is strictly positive. -/
def InvOk (inv : List (Int × Nat)) : Prop :=
  inv.Pairwise (fun a b => a.1 ≠ b.1) ∧ ∀ q ∈ inv, 0 < q.2

/-- `_manhattan` on planar pairs. -/
def manhattan (a b : Int × Int) : Nat :=
  (a.1 - b.1).natAbs + (a.2 - b.2).natAbs

/-- `_drops(dist, drop)`: the number of drops needed to descend `dist`
(Python 2 floor division, plus one for a remainder). -/
def dropsFn (dist drop : Nat) : Nat :=
  dist / drop + (if dist % drop ≠ 0 then 1 else 0)

/-- `_mine_heuristic(bot, problem)` as a function of the bot state, the target
block id and the problem's recorded block location. -/
def mineHeuristic (st : BotS) (blockId : Int) (blockLoc : V3) : Nat :=
  if contains st blockId then 0
  else
    let manDist := manhattan (st.pos.x, st.pos.z) (blockLoc.x, blockLoc.z)
    let yDiff0 : Int := st.pos.y - blockLoc.y
    let yDiff : Int := if yDiff0 < 0 then yDiff0 + 1 else yDiff0
    if yDiff = 0 then manDist
    else
      let drop : Nat := if yDiff > 0 then DROP else 1
      let yAbs : Nat := yDiff.natAbs
      let drops := dropsFn yAbs drop
      if manDist > drops then manDist
      else if manDist = drops then manDist + 1
      else if drop = 1 then drops
      else if yAbs % drop = 1 then drops
      else drops + 1

/-- A Python object holding an `_ImaginaryBot`: its content plus an object
identity.  `_ImaginaryBot` overrides `__hash__` but never `__eq__` (and no
`__cmp__` exists anywhere in the hierarchy), so `==` on these objects is
object identity. -/
structure PyBotObj where
  oid : Nat
  st : BotS
deriving DecidableEq, Repr

/-- Python `==` on `_ImaginaryBot` objects: default identity comparison. -/
def pyEq (a b : PyBotObj) : Bool := a.oid == b.oid

/-- `_ImaginaryBot.__hash__` hashes `frozenset([pos] + inventory items +
changes items)`; the hash is therefore a function of exactly this collection
of the state's content. -/
def botHashContent (st : BotS) :
    Multiset (Sum V3 (Sum (Int × Nat) (V3 × Int))) :=
  Multiset.ofList
    (([Sum.inl st.pos] : List (Sum V3 (Sum (Int × Nat) (V3 × Int)))) ++
      (st.inv.map fun q => Sum.inr (Sum.inl q)) ++
      (st.changes.map fun q => Sum.inr (Sum.inr q)))

/-- A search problem (`SearchProblem`): start state, goal predicate, and
successor function returning (successor, action, step cost) triples. -/
structure Problem (σ α : Type) where
  start : σ
  isGoal : σ → Bool
  succ : σ → List (σ × α × Nat)

/-- A search node, `(state, action, total_cost, prev_node)` in the source; the
root carries no action, no parent and total cost 0. -/
inductive Node (σ α : Type) where
  | root (state : σ)
  | child (state : σ) (action : α) (cost : Nat) (prev : Node σ α)
deriving DecidableEq

/-- The node's state, `node[0]`. -/
def Node.state {σ α : Type} : Node σ α → σ
  | Node.root s => s
  | Node.child s _ _ _ => s

/-- The node's accumulated path cost, `node[2]`. -/
def Node.cost {σ α : Type} : Node σ α → Nat
  | Node.root _ => 0
  | Node.child _ _ c _ => c

/-- The action-sequence reconstruction of `graph_search`: walk the parent
links collecting incoming actions and reverse. -/
def Node.plan {σ α : Type} : Node σ α → List α
  | Node.root _ => []
  | Node.child _ a _ prev => Node.plan prev ++ [a]

/-- The nodes pushed when a popped node is expanded: one child per successor
triple, at accumulated cost `node[2] + cost`. -/
def children {σ α : Type} (p : Problem σ α) (n : Node σ α) : List (Node σ α) :=
  (p.succ n.state).map fun x => Node.child x.1 x.2.1 (n.cost + x.2.2) n

/-- FIFO pop (`util.Queue`, modelled from the spec: first in, first out). -/
def popFront {σ α : Type} :
    List (Node σ α) → Option (Node σ α × List (Node σ α))
  | [] => none
  | n :: rest => some (n, rest)

/-- Stable minimum-priority pop (`util.PriorityQueueWithFunction`, modelled
from the spec: lowest priority first; first pushed, first popped among
ties). -/
def popMin {σ α : Type} (f : Node σ α → Nat) :
    List (Node σ α) → Option (Node σ α × List (Node σ α))
  | [] => none
  | n :: rest =>
    match popMin f rest with
    | none => some (n, [])
    | some (m, rest2) => if f n ≤ f m then some (n, rest) else some (m, n :: rest2)

/-- `graph_search(problem, fringe)`, fuelled.  `none` means the fuel ran out;
`some (Except.error ())` is the `No solution` exception on an exhausted
frontier; `some (Except.ok plan)` is a normal return.  The goal test happens
at pop time, before the closed-set check, and expanding pushes every
successor. -/
def searchLoop {σ α : Type} [DecidableEq σ] (p : Problem σ α)
    (sel : List (Node σ α) → Option (Node σ α × List (Node σ α))) :
    Nat → List (Node σ α) → List σ → Option (Except Unit (List α))
  | 0, _, _ => none
  | fuel + 1, fringe, closed =>
    match sel fringe with
    | none => some (Except.error ())
    | some (n, rest) =>
      if p.isGoal n.state then some (Except.ok n.plan)
      else if n.state ∈ closed then searchLoop p sel fuel rest closed
      else searchLoop p sel fuel (rest ++ children p n) (n.state :: closed)

/-- `graph_search` started on the start node `(start, None, 0, None)`. -/
def graphSearch {σ α : Type} [DecidableEq σ] (p : Problem σ α)
    (sel : List (Node σ α) → Option (Node σ α × List (Node σ α)))
    (fuel : Nat) : Option (Except Unit (List α)) :=
  searchLoop p sel fuel [Node.root p.start] []

/-- `breadthFirstSearch`: `graph_search` with the FIFO queue. -/
def bfs {σ α : Type} [DecidableEq σ] (p : Problem σ α) (fuel : Nat) :
    Option (Except Unit (List α)) :=
  graphSearch p popFront fuel

/-- `uniformCostSearch`: priority is the accumulated cost `node[2]`. -/
def ucs {σ α : Type} [DecidableEq σ] (p : Problem σ α) (fuel : Nat) :
    Option (Except Unit (List α)) :=
  graphSearch p (popMin fun n => n.cost) fuel

/-- `aStarSearch`: priority is `node[2] + heuristic(node[0], problem)`. -/
def astar {σ α : Type} [DecidableEq σ] (p : Problem σ α) (h : σ → Nat)
    (fuel : Nat) : Option (Except Unit (List α)) :=
  graphSearch p (popMin fun n => n.cost + h n.state) fuel

/-- An action sequence drives one state to another: each action is taken from
the successor triples of the current state. -/
inductive Drives {σ α : Type} (p : Problem σ α) : σ → List α → σ → Prop
  | nil (s : σ) : Drives p s [] s
  | cons {s t u : σ} {a : α} {c : Nat} {as : List α} :
      (t, a, c) ∈ p.succ s → Drives p t as u → Drives p s (a :: as) u

/-- `k` is the length of a shortest goal-reaching action sequence from the
start state. -/
def IsOptCost {σ α : Type} (p : Problem σ α) (k : Nat) : Prop :=
  (∃ as t, Drives p p.start as t ∧ p.isGoal t = true ∧ as.length = k) ∧
  ∀ as t, Drives p p.start as t → p.isGoal t = true → k ≤ as.length

/-- Every step cost the successor function ever returns is 1 (all of this
program's problem formulations use unit costs). -/
def UnitCosts {σ α : Type} (p : Problem σ α) : Prop :=
  ∀ s : σ, ∀ x ∈ p.succ s, x.2.2 = 1

/-- Heuristic consistency: it never drops by more than a step's cost along
any edge. -/
def Consistent {σ α : Type} (p : Problem σ α) (h : σ → Nat) : Prop :=
  ∀ s : σ, ∀ x ∈ p.succ s, h s ≤ x.2.2 + h x.1

/-- The heuristic vanishes on goal states. -/
def GoalZero {σ α : Type} (p : Problem σ α) (h : σ → Nat) : Prop :=
  ∀ s : σ, p.isGoal s = true → h s = 0

/-- Admissibility: the heuristic never exceeds the length of any
goal-reaching action sequence. -/
def Admissible {σ α : Type} (p : Problem σ α) (h : σ → Nat) : Prop :=
  ∀ (s : σ) (as : List α) (t : σ), Drives p s as t → p.isGoal t = true →
    h s ≤ as.length

/-- A well-formed node: its parent chain starts at the problem's start state,
every link is a successor triple, and costs accumulate. -/
def Node.okay {σ α : Type} (p : Problem σ α) : Node σ α → Prop
  | Node.root s => s = p.start
  | Node.child t a c prev => Node.okay p prev ∧
      ∃ cc, (t, a, cc) ∈ p.succ (Node.state prev) ∧ c = Node.cost prev + cc

/-- One expansion layer of the set of reachable states. -/
def stepSet {σ α : Type} [DecidableEq σ] (p : Problem σ α) (S : Finset σ) :
    Finset σ :=
  S ∪ S.biUnion fun s => ((p.succ s).map fun x => x.1).toFinset

/-- The states reachable from the start in at most `n` steps. -/
def reachSet {σ α : Type} [DecidableEq σ] (p : Problem σ α) : Nat → Finset σ
  | 0 => {p.start}
  | n + 1 => stepSet p (reachSet p n)

/-- The search-loop invariant: fringe nodes are well formed; closed states
are reachable within the optimal cost, are not goals, and have all their
successors either closed or represented on the fringe by a node whose cost
is within one of any path to the closed parent; and the start state is
closed or on the fringe at cost 0. -/
structure SInv {σ α : Type} (p : Problem σ α) (k : Nat)
    (fringe : List (Node σ α)) (closed : List σ) : Prop where
  fringeOkay : ∀ n ∈ fringe, Node.okay p n
  closedBound : ∀ t ∈ closed, ∃ as, Drives p p.start as t ∧ as.length ≤ k
  closedNotGoal : ∀ t ∈ closed, p.isGoal t = false
  expand : ∀ t ∈ closed, ∀ x ∈ p.succ t, x.1 ∈ closed ∨
    ∃ n ∈ fringe, Node.state n = x.1 ∧
      ∀ as : List α, Drives p p.start as t → Node.cost n ≤ as.length + 1
  startIn : p.start ∈ closed ∨
    ∃ n ∈ fringe, Node.state n = p.start ∧ Node.cost n = 0

/-- The FIFO-queue invariant for breadth-first search: node costs are
nondecreasing along the queue and any two spread by at most one. -/
def QInv {σ α : Type} (l : List (Node σ α)) : Prop :=
  l.Pairwise (fun a b => Node.cost a ≤ Node.cost b) ∧
  ∀ a ∈ l, ∀ b ∈ l, Node.cost a ≤ Node.cost b + 1

/-- The obligations a frontier discipline must satisfy for the optimality
argument, relative to a heuristic `h` and a discipline invariant `J`: unit
step costs, a consistent goal-vanishing heuristic, an optimal cost `k`, and
a pop operation that removes one element, minimises `cost + h ∘ state` among
the queue's nodes, and preserves `J` through pops and pushes. -/
structure SearchSetup {σ α : Type} (p : Problem σ α) (h : σ → Nat) (k : Nat)
    (sel : List (Node σ α) → Option (Node σ α × List (Node σ α)))
    (J : List (Node σ α) → Prop) : Prop where
  unit : UnitCosts p
  consistent : Consistent p h
  goalZero : GoalZero p h
  kopt : IsOptCost p k
  jInit : J [Node.root p.start]
  selNone : ∀ l, J l → sel l = none → l = []
  selDecomp : ∀ l n rest, J l → sel l = some (n, rest) →
    ∃ l1 l2, l = l1 ++ n :: l2 ∧ rest = l1 ++ l2
  selMin : ∀ l n rest, J l → sel l = some (n, rest) →
    ∀ m ∈ l, Node.cost n + h (Node.state n) ≤ Node.cost m + h (Node.state m)
  jPop : ∀ l n rest, J l → sel l = some (n, rest) → J rest
  jPush : ∀ l n rest, J l → sel l = some (n, rest) → J (rest ++ children p n)

/-- C7 counterexample world: the cell two above the agent's feet is air but
the cell three above (the second cell above its head) is stone. -/
def live7 : V3 → Int := fun p => if p = ⟨0, 2, 0⟩ then AIR else 1

/-- C7 counterexample world: air everywhere, so both cells above the agent's
head are passable. -/
def live9 : V3 → Int := fun _ => AIR

/-- C7 counterexample state. -/
def st7 : BotS := ⟨⟨0, 0, 0⟩, [], []⟩

/-- C8 world: a block of id 5 at body level next to the agent, otherwise
air. -/
def live8 : V3 → Int := fun p => if p = ⟨1, 0, 0⟩ then 5 else AIR

/-- C8 state. -/
def st8 : BotS := ⟨⟨0, 0, 0⟩, [], []⟩

/-- C9: two distinct Python objects with identical content. -/
def pyB1 : PyBotObj := ⟨1, ⟨⟨0, 0, 0⟩, [(1, 2)], [(⟨0, 0, 0⟩, 4)]⟩⟩

/-- C9: the second object, a deep copy of the first. -/
def pyB2 : PyBotObj := ⟨2, ⟨⟨0, 0, 0⟩, [(1, 2)], [(⟨0, 0, 0⟩, 4)]⟩⟩

/-- States of the C2 counterexample problem. -/
inductive CES where
  | S | X | Y | Z | A | A1 | G
deriving DecidableEq, Repr, Fintype

/-- C2 counterexample problem: all step costs 1; two routes to `A` (directly
from `S` at cost 1, or via `Y`, `Z` at cost 3); the only goal path continues
`A → A1 → G`; the optimal cost is 4. -/
def Pce : Problem CES Unit where
  start := CES.S
  isGoal := fun s => s = CES.G
  succ := fun s =>
    match s with
    | CES.S => [(CES.X, (), 1), (CES.Y, (), 1)]
    | CES.X => [(CES.A, (), 1)]
    | CES.Y => [(CES.Z, (), 1)]
    | CES.Z => [(CES.A, (), 1)]
    | CES.A => [(CES.A1, (), 1)]
    | CES.A1 => [(CES.G, (), 1)]
    | CES.G => []

/-- C2 counterexample heuristic: admissible (3 = the true goal distance of
`X`) but inconsistent across the edge `X → A`. -/
def hce : CES → Nat := fun s => match s with | CES.X => 3 | _ => 0

/-- Exact goal distances of `Pce`, used as a certificate to prove `hce`
admissible. -/
def Dce : CES → Nat :=
  fun s =>
    match s with
    | CES.S => 4 | CES.X => 3 | CES.Y => 4 | CES.Z => 3
    | CES.A => 2 | CES.A1 => 1 | CES.G => 0

/-- A one-step problem on `Bool` with a reachable goal, used by witnesses. -/
def pW : Problem Bool Unit where
  start := false
  isGoal := fun s => s
  succ := fun s => if s then [] else [(true, (), 1)]

/-- A problem whose start state already satisfies the goal, used by
witnesses. -/
def pG : Problem Bool Unit where
  start := true
  isGoal := fun s => s
  succ := fun _ => []

theorem dictGet_eq_none_of_keys (l : List (Int × Nat)) (k : Int)
    (h : ∀ q ∈ l, q.1 ≠ k) : dictGet l k = none := by
  induction l with
  | nil => rfl
  | cons hd tl ih =>
    have h1 : hd.1 ≠ k := h hd (List.mem_cons_self hd tl)
    simpa [dictGet, h1] using ih fun q hq => h q (List.mem_cons_of_mem hd hq)

theorem mem_addToInv {inv : List (Int × Nat)} {b : Int} {q : Int × Nat}
    (h : q ∈ addToInv inv b) : q ∈ inv ∨ q.1 = b := by
  induction inv with
  | nil =>
    simp [addToInv] at h
    subst h; right; rfl
  | cons hd tl ih =>
    obtain ⟨k, v⟩ := hd
    by_cases hk : k = b
    · simp [addToInv, hk] at h
      rcases h with h | h
      · subst h; right; rfl
      · left; exact List.mem_cons_of_mem _ h
    · simp only [addToInv, if_neg hk, List.mem_cons] at h
      rcases h with h | h
      · left; subst h; exact List.mem_cons_self _ _
      · rcases ih h with h1 | h1
        · left; exact List.mem_cons_of_mem _ h1
        · right; exact h1

theorem mem_invRemoveOne {inv : List (Int × Nat)} {b : Int} {q : Int × Nat}
    (h : q ∈ invRemoveOne inv b) : q.1 ∈ inv.map Prod.fst := by
  induction inv with
  | nil => simp [invRemoveOne] at h
  | cons hd tl ih =>
    obtain ⟨k, v⟩ := hd
    by_cases hk : k = b
    · by_cases hv : v = 1
      · simp only [invRemoveOne, if_pos hk, if_pos hv] at h
        simp only [List.map_cons, List.mem_cons]
        right
        exact List.mem_map_of_mem Prod.fst h
      · simp only [invRemoveOne, if_pos hk, if_neg hv, List.mem_cons] at h
        rcases h with h | h
        · simp [h]
        · simp only [List.map_cons, List.mem_cons]
          right
          exact List.mem_map_of_mem Prod.fst h
    · simp only [invRemoveOne, if_neg hk, List.mem_cons] at h
      rcases h with h | h
      · simp [h]
      · simp only [List.map_cons, List.mem_cons]
        right
        exact ih h

theorem addToInv_ok {inv : List (Int × Nat)} (b : Int) (h : InvOk inv) :
    InvOk (addToInv inv b) := by
  obtain ⟨hpw, hpos⟩ := h
  induction inv with
  | nil => exact ⟨List.pairwise_singleton _ _, by simp [addToInv]⟩
  | cons hd tl ih =>
    obtain ⟨k, v⟩ := hd
    rw [List.pairwise_cons] at hpw
    obtain ⟨hk1, hk2⟩ := hpw
    by_cases hk : k = b
    · refine ⟨?_, ?_⟩
      · simp only [addToInv, if_pos hk]
        exact List.pairwise_cons.2 ⟨hk1, hk2⟩
      · intro q hq
        simp only [addToInv, if_pos hk, List.mem_cons] at hq
        rcases hq with hq | hq
        · simp [hq]
        · exact hpos q (List.mem_cons_of_mem _ hq)
    · have htl : InvOk (addToInv tl b) :=
        ih hk2 fun q hq => hpos q (List.mem_cons_of_mem _ hq)
      refine ⟨?_, ?_⟩
      · simp only [addToInv, if_neg hk]
        refine List.pairwise_cons.2 ⟨?_, htl.1⟩
        intro q hq
        rcases mem_addToInv hq with h1 | h1
        · exact hk1 q h1
        · rw [h1]; exact hk
      · intro q hq
        simp only [addToInv, if_neg hk, List.mem_cons] at hq
        rcases hq with hq | hq
        · subst hq; exact hpos (k, v) (List.mem_cons_self _ _)
        · exact htl.2 q hq

theorem invRemoveOne_ok {inv : List (Int × Nat)} (b : Int) (h : InvOk inv) :
    InvOk (invRemoveOne inv b) := by
  obtain ⟨hpw, hpos⟩ := h
  induction inv with
  | nil => exact ⟨List.Pairwise.nil, by simp [invRemoveOne]⟩
  | cons hd tl ih =>
    obtain ⟨k, v⟩ := hd
    rw [List.pairwise_cons] at hpw
    obtain ⟨hk1, hk2⟩ := hpw
    have hvpos : 0 < v := hpos (k, v) (List.mem_cons_self _ _)
    have htlpos : ∀ q ∈ tl, 0 < q.2 := fun q hq => hpos q (List.mem_cons_of_mem _ hq)
    by_cases hk : k = b
    · by_cases hv : v = 1
      · rw [invRemoveOne, if_pos hk, if_pos hv]
        exact And.intro hk2 htlpos
      · refine ⟨?_, ?_⟩
        · simp only [invRemoveOne, if_pos hk, if_neg hv]
          exact List.pairwise_cons.2 ⟨hk1, hk2⟩
        · intro q hq
          simp only [invRemoveOne, if_pos hk, if_neg hv, List.mem_cons] at hq
          rcases hq with hq | hq
          · subst hq; simp; omega
          · exact htlpos q hq
    · have htl : InvOk (invRemoveOne tl b) := ih hk2 htlpos
      refine ⟨?_, ?_⟩
      · simp only [invRemoveOne, if_neg hk]
        refine List.pairwise_cons.2 ⟨?_, htl.1⟩
        intro q hq
        have := mem_invRemoveOne hq
        rw [List.mem_map] at this
        obtain ⟨q0, hq0, hq0e⟩ := this
        rw [← hq0e]
        exact hk1 q0 hq0
      · intro q hq
        simp only [invRemoveOne, if_neg hk, List.mem_cons] at hq
        rcases hq with hq | hq
        · subst hq; exact hvpos
        · exact htl.2 q hq

theorem addToInv_get_same (inv : List (Int × Nat)) (b : Int) :
    dictGet (addToInv inv b) b = some (dictGetD inv b 0 + 1) := by
  induction inv with
  | nil => simp [addToInv, dictGet, dictGetD]
  | cons hd tl ih =>
    obtain ⟨k, v⟩ := hd
    by_cases hk : k = b
    · simp [addToInv, hk, dictGet, dictGetD]
    · simp [addToInv, hk, dictGet, dictGetD] at ih ⊢
      exact ih

theorem addToInv_get_other (inv : List (Int × Nat)) (b k : Int) (h : k ≠ b) :
    dictGet (addToInv inv b) k = dictGet inv k := by
  have hbk : ¬b = k := fun h1 => h h1.symm
  induction inv with
  | nil =>
    show dictGet [(b, 1)] k = none
    rw [dictGet, if_neg hbk, dictGet]
  | cons hd tl ih =>
    obtain ⟨k0, v0⟩ := hd
    by_cases hk0 : k0 = b
    · have hk0k : ¬k0 = k := by rw [hk0]; exact hbk
      rw [addToInv, if_pos hk0, dictGet, if_neg hk0k, dictGet, if_neg hk0k]
    · by_cases hkk : k0 = k
      · rw [addToInv, if_neg hk0, dictGet, if_pos hkk, dictGet, if_pos hkk]
      · rw [addToInv, if_neg hk0, dictGet, if_neg hkk, dictGet, if_neg hkk, ih]

theorem invRemoveOne_get_one {inv : List (Int × Nat)} {b : Int}
    (hpw : inv.Pairwise fun a c => a.1 ≠ c.1) (h : dictGet inv b = some 1) :
    dictGet (invRemoveOne inv b) b = none := by
  induction inv with
  | nil => simp [dictGet] at h
  | cons hd tl ih =>
    obtain ⟨k, v⟩ := hd
    rw [List.pairwise_cons] at hpw
    by_cases hk : k = b
    · rw [dictGet, if_pos hk] at h
      injection h with h
      rw [invRemoveOne, if_pos hk, if_pos h]
      refine dictGet_eq_none_of_keys tl b fun q hq => ?_
      rw [← hk]
      exact Ne.symm (hpw.1 q hq)
    · rw [dictGet, if_neg hk] at h
      rw [invRemoveOne, if_neg hk, dictGet, if_neg hk]
      exact ih hpw.2 h

theorem invRemoveOne_get_ge_two {inv : List (Int × Nat)} {b : Int} {v : Nat}
    (h : dictGet inv b = some v) (hv : v ≠ 1) :
    dictGet (invRemoveOne inv b) b = some (v - 1) := by
  induction inv with
  | nil => simp [dictGet] at h
  | cons hd tl ih =>
    obtain ⟨k, v0⟩ := hd
    by_cases hk : k = b
    · rw [dictGet, if_pos hk] at h
      injection h with h
      subst h
      rw [invRemoveOne, if_pos hk, if_neg hv, dictGet, if_pos hk]
    · rw [dictGet, if_neg hk] at h
      rw [invRemoveOne, if_neg hk, dictGet, if_neg hk]
      exact ih h

theorem firstKeyNe_all_excl {inv : List (Int × Nat)} {e : Int}
    (h : ∀ q ∈ inv, q.1 = e) : firstKeyNe inv (some e) = none := by
  induction inv with
  | nil => rfl
  | cons hd tl ih =>
    have h1 : hd.1 = e := h hd (List.mem_cons_self hd tl)
    obtain ⟨k, v⟩ := hd
    rw [firstKeyNe, if_neg]
    · exact ih fun q hq => h q (List.mem_cons_of_mem _ hq)
    · simp only at h1
      simp [h1]

/-- C4.  Placement failure: with an empty inventory, or an inventory whose
every key equals the excluded block id, `_place` raises the (single)
empty-inventory error and returns with the state exactly as it was — both
raises occur before any mutation. -/
theorem claim4_place_error_paths (st : BotS) (loc : V3) (excl blk : Option Int)
    (e : Int) :
    (st.inv = [] → place st loc excl blk = (st, some BotErr.emptyInventory)) ∧
    ((∀ q ∈ st.inv, q.1 = e) →
      place st loc (some e) none = (st, some BotErr.emptyInventory)) := by
  constructor
  · intro h
    simp [place, h]
  · intro h
    by_cases h0 : st.inv = []
    · simp [place, h0]
    · simp [place, h0, firstKeyNe_all_excl h]

/-- C4 witness: an empty inventory, and an inventory holding only the excluded
block id `7`. -/
theorem claim4_place_error_paths_witness :
    place ⟨⟨0, 0, 0⟩, [], []⟩ ⟨1, 0, 0⟩ none none =
      (⟨⟨0, 0, 0⟩, [], []⟩, some BotErr.emptyInventory) ∧
    place ⟨⟨0, 0, 0⟩, [(7, 2)], []⟩ ⟨1, 0, 0⟩ (some 7) none =
      (⟨⟨0, 0, 0⟩, [(7, 2)], []⟩, some BotErr.emptyInventory) := by
  constructor
  · exact (claim4_place_error_paths ⟨⟨0, 0, 0⟩, [], []⟩ ⟨1, 0, 0⟩ none none 0).1 rfl
  · exact (claim4_place_error_paths ⟨⟨0, 0, 0⟩, [(7, 2)], []⟩ ⟨1, 0, 0⟩ none none 7).2
      (by decide)

/-- C5.  Inventory invariant: adding a block increments an existing count or
inserts the key with count 1; a successful placement decrements the count or
deletes the key when the count was 1; and every inventory-touching operation
(`_place`, intended `_mine`, `_move_down`, `_add_to_inv`) preserves
key-distinctness and strict positivity of all stored counts. -/
theorem claim5_inventory_invariant (live : V3 → Int) (st : BotS) (b : Int)
    (loc loc2 : V3) (excl blk : Option Int) (hok : InvOk st.inv) :
    InvOk (addToInv st.inv b) ∧
    dictGet (addToInv st.inv b) b = some (dictGetD st.inv b 0 + 1) ∧
    (∀ k, k ≠ b → dictGet (addToInv st.inv b) k = dictGet st.inv k) ∧
    (∀ st2, place st loc excl blk = (st2, none) → InvOk st2.inv) ∧
    (∀ st2 r, moveDown live st = (st2, r) → InvOk st2.inv) ∧
    (∀ st2 r, mineI live st loc2 = (st2, r) → InvOk st2.inv) ∧
    (∀ bb, dictGet st.inv bb = some 1 →
      dictGet (invRemoveOne st.inv bb) bb = none) ∧
    (∀ bb v, dictGet st.inv bb = some v → v ≠ 1 →
      dictGet (invRemoveOne st.inv bb) bb = some (v - 1)) := by
  refine ⟨addToInv_ok b hok, addToInv_get_same st.inv b,
    fun k hk => addToInv_get_other st.inv b k hk, ?_, ?_, ?_,
    fun bb h1 => invRemoveOne_get_one hok.1 h1,
    fun bb v h1 h2 => invRemoveOne_get_ge_two h1 h2⟩
  · intro st2 h
    by_cases h0 : st.inv = []
    · simp [place, h0] at h
    · simp only [place, if_neg h0] at h
      rcases hsel : (match blk with | some b => some b | none => firstKeyNe st.inv excl)
        with _ | bsel
      · rw [hsel] at h; simp at h
      · rw [hsel] at h
        by_cases hcon : dictContains st.inv bsel
        · simp only [hcon, if_true, Prod.mk.injEq] at h
          rw [← h.1]
          exact invRemoveOne_ok bsel hok
        · simp [hcon] at h
  · intro st2 r h
    simp only [moveDown] at h
    by_cases hw : getBlock live st (st.pos + ⟨0, -1, 0⟩) = WATER
    · simp only [hw, ne_eq, not_true_eq_false, if_false, moveTo, Prod.mk.injEq] at h
      rw [← h.1]
      exact hok
    · simp only [hw, ne_eq, not_false_eq_true, if_true, moveTo, Prod.mk.injEq] at h
      rw [← h.1]
      exact addToInv_ok _ hok
  · intro st2 r h
    simp only [mineI, Prod.mk.injEq] at h
    rw [← h.1]
    exact addToInv_ok _ hok

/-- C5 witness: the invariant facts evaluated on the concrete inventory
`[(1, 2)]`. -/
theorem claim5_inventory_invariant_witness :
    InvOk (addToInv [(1, 2)] 5) ∧
    dictGet (addToInv [(1, 2)] 5) 5 = some 1 := by
  have h := claim5_inventory_invariant (fun _ => AIR) ⟨⟨0, 0, 0⟩, [(1, 2)], []⟩ 5
    ⟨0, 0, 0⟩ ⟨0, 0, 0⟩ none none (by constructor <;> simp)
  exact ⟨h.1, h.2.1⟩

theorem popFront_spec {σ α : Type} (l : List (Node σ α)) (n : Node σ α)
    (rest : List (Node σ α)) (h : popFront l = some (n, rest)) :
    n ∈ l ∧ ∀ m ∈ rest, m ∈ l := by
  cases l with
  | nil => simp [popFront] at h
  | cons a r =>
    simp only [popFront, Option.some.injEq, Prod.mk.injEq] at h
    obtain ⟨rfl, rfl⟩ := h
    exact ⟨List.mem_cons_self _ _, fun m hm => List.mem_cons_of_mem _ hm⟩

theorem okay_children {σ α : Type} {p : Problem σ α} {n m : Node σ α}
    (hn : Node.okay p n) (hm : m ∈ children p n) : Node.okay p m := by
  simp only [children, List.mem_map] at hm
  obtain ⟨x, hx, rfl⟩ := hm
  exact ⟨hn, x.2.2, hx, rfl⟩

theorem drives_append {σ α : Type} {p : Problem σ α} {s t u : σ}
    {as bs : List α} (h1 : Drives p s as t) (h2 : Drives p t bs u) :
    Drives p s (as ++ bs) u := by
  induction h1 with
  | nil => simpa using h2
  | cons hmem htail ih => exact Drives.cons hmem (ih h2)

theorem drives_split {σ α : Type} {p : Problem σ α} {s u : σ}
    {as bs : List α} (h : Drives p s (as ++ bs) u) :
    ∃ t, Drives p s as t ∧ Drives p t bs u := by
  induction as generalizing s with
  | nil => exact ⟨s, Drives.nil s, by simpa using h⟩
  | cons a as ih =>
    cases h with
    | cons hmem htail =>
      obtain ⟨t, h1, h2⟩ := ih htail
      exact ⟨t, Drives.cons hmem h1, h2⟩

theorem drives_nil_eq {σ α : Type} {p : Problem σ α} {s t : σ}
    (h : Drives p s ([] : List α) t) : s = t := by
  cases h; rfl

theorem drives_singleton {σ α : Type} {p : Problem σ α} {s t : σ} {a : α}
    (h : Drives p s [a] t) : ∃ c, (t, a, c) ∈ p.succ s := by
  cases h with
  | cons hmem htail =>
    cases htail
    exact ⟨_, hmem⟩

theorem okay_plan_drives {σ α : Type} {p : Problem σ α} {n : Node σ α}
    (h : Node.okay p n) : Drives p p.start (Node.plan n) (Node.state n) := by
  induction n with
  | root s =>
    cases h
    exact Drives.nil _
  | child t a c prev ih =>
    obtain ⟨hprev, cc, hmem, hc⟩ := h
    exact drives_append (ih hprev) (Drives.cons hmem (Drives.nil t))

theorem okay_plan_length {σ α : Type} {p : Problem σ α} (hU : UnitCosts p)
    {n : Node σ α} (h : Node.okay p n) :
    (Node.plan n).length = Node.cost n := by
  induction n with
  | root s => rfl
  | child t a c prev ih =>
    obtain ⟨hprev, cc, hmem, hc⟩ := h
    have h1 : cc = 1 := hU (Node.state prev) (t, a, cc) hmem
    simp only [Node.plan, List.length_append, List.length_cons, List.length_nil,
      Node.cost, ih hprev, hc, h1]

theorem searchLoop_sound {σ α : Type} [DecidableEq σ] (p : Problem σ α)
    (sel : List (Node σ α) → Option (Node σ α × List (Node σ α)))
    (hsel : ∀ l n rest, sel l = some (n, rest) → n ∈ l ∧ ∀ m ∈ rest, m ∈ l) :
    ∀ (fuel : Nat) (fringe : List (Node σ α)) (closed : List σ)
      (plan : List α), (∀ n ∈ fringe, Node.okay p n) →
      searchLoop p sel fuel fringe closed = some (Except.ok plan) →
      ∃ t, Drives p p.start plan t ∧ p.isGoal t = true := by
  intro fuel
  induction fuel with
  | zero => intro fringe closed plan _ h; simp [searchLoop] at h
  | succ fuel ih =>
    intro fringe closed plan hok h
    rw [searchLoop] at h
    split at h
    · simp at h
    · rename_i n rest hs
      obtain ⟨hn, hrest⟩ := hsel fringe n rest hs
      split at h
      · rename_i hg
        simp only [Option.some.injEq, Except.ok.injEq] at h
        subst h
        exact ⟨Node.state n, okay_plan_drives (hok n hn), hg⟩
      · rename_i hg
        split at h
        · exact ih rest closed plan (fun m hm => hok m (hrest m hm)) h
        · refine ih _ _ plan ?_ h
          intro m hm
          rcases List.mem_append.1 hm with hm | hm
          · exact hok m (hrest m hm)
          · exact okay_children (hok n hn) hm

/-- C6.  On frontier exhaustion the engine raises (`No solution`) rather than
returning: a normal return only ever happens for a popped goal state, so when
no reachable state is a goal every terminating run yields the error. -/
theorem claim6_no_path {σ α : Type} [DecidableEq σ] (p : Problem σ α)
    (sel : List (Node σ α) → Option (Node σ α × List (Node σ α)))
    (hsel : ∀ l n rest, sel l = some (n, rest) → n ∈ l ∧ ∀ m ∈ rest, m ∈ l) :
    (∀ (fuel : Nat) (plan : List α),
      graphSearch p sel fuel = some (Except.ok plan) →
      ∃ t, Drives p p.start plan t ∧ p.isGoal t = true) ∧
    ((∀ (as : List α) (t : σ), Drives p p.start as t → p.isGoal t = false) →
      ∀ (fuel : Nat) (r : Except Unit (List α)),
        graphSearch p sel fuel = some r → r = Except.error ()) := by
  constructor
  · intro fuel plan h
    refine searchLoop_sound p sel hsel fuel _ _ plan ?_ h
    intro n hn
    rcases List.mem_singleton.1 hn with rfl
    rfl
  · intro hng fuel r h
    cases r with
    | error e => rfl
    | ok plan =>
      obtain ⟨t, hd, hg⟩ := (by
        refine searchLoop_sound p sel hsel fuel _ _ plan ?_ h
        intro n hn
        rcases List.mem_singleton.1 hn with rfl
        rfl : ∃ t, Drives p p.start plan t ∧ p.isGoal t = true)
      rw [hng plan t hd] at hg
      exact absurd hg (by simp)

/-- C6 witness: on the one-step problem `pW` the engine's normal return after
fuel 2 certifies a reachable goal. -/
theorem claim6_no_path_witness :
    ∃ t, Drives pW pW.start [()] t ∧ pW.isGoal t = true :=
  (claim6_no_path pW popFront (fun l n rest h => popFront_spec l n rest h)).1 2
    [()] (by rfl)

/-- C10.  If the start state already satisfies the goal predicate the engine
returns the empty action sequence at once (already at fuel 1: a single pop,
no expansion), and replaying an empty action sequence leaves the agent's
state unchanged. -/
theorem claim10_goal_at_start {σ α : Type} [DecidableEq σ] (p : Problem σ α)
    (sel : List (Node σ α) → Option (Node σ α × List (Node σ α)))
    (hsel : sel [Node.root p.start] = some (Node.root p.start, []))
    (hgoal : p.isGoal p.start = true) :
    (∀ fuel : Nat, 1 ≤ fuel → graphSearch p sel fuel = some (Except.ok [])) ∧
    (∀ (live : V3 → Int) (st : BotS), takeActions live st [] = (st, none)) := by
  constructor
  · intro fuel hfuel
    cases fuel with
    | zero => exact absurd hfuel (by simp)
    | succ fuel =>
      simp [graphSearch, searchLoop, hsel, Node.state, hgoal, Node.plan]
  · intro live st
    rfl

/-- C10 witness: the goal-at-start problem `pG` under the FIFO frontier, and
the empty replay on a concrete bot state. -/
theorem claim10_goal_at_start_witness :
    graphSearch pG popFront 1 = some (Except.ok []) ∧
    takeActions (fun _ => AIR) ⟨⟨0, 0, 0⟩, [], []⟩ [] =
      (⟨⟨0, 0, 0⟩, [], []⟩, none) := by
  have h := claim10_goal_at_start pG popFront (by rfl) (by rfl)
  exact ⟨h.1 1 (by decide), h.2 (fun _ => AIR) ⟨⟨0, 0, 0⟩, [], []⟩⟩

/-- C7 (amended).  `_get_move_actions` as written raises TypeError on every
call: `_side_moves` has no return statement, so the loop's first
`rtn.extend(self._side_moves(...))` extends with `None`.  At the moment of
the failure the accumulated list holds the vertical up-move — a bare move
when the agent is fully surrounded by water at body level, otherwise
move-up-and-place — if and only if the single cell two above the agent's
feet (the one cell above its head) is passable (air or water); the claim's
two-cell condition is not the one the source evaluates. -/
theorem claim7_up_move_condition (live : V3 → Int) (st : BotS) (excl : Option Int) :
    (getMoveActionsSrc live st excl).2 = some PyExc.typeError ∧
    (surrounded live st = true →
      ((Action.move (st.pos + ⟨0, 1, 0⟩) ∈ (getMoveActionsSrc live st excl).1) ↔
        (getBlock live st (st.pos + ⟨0, 2, 0⟩) = AIR ∨
          getBlock live st (st.pos + ⟨0, 2, 0⟩) = WATER))) ∧
    (surrounded live st = false →
      ((Action.moveUp excl ∈ (getMoveActionsSrc live st excl).1) ↔
        (getBlock live st (st.pos + ⟨0, 2, 0⟩) = AIR ∨
          getBlock live st (st.pos + ⟨0, 2, 0⟩) = WATER))) := by
  have hloop : ∀ (c : Bool) (rtn : List Action),
      sideExtendLoop live st c rtn adjDirs = (rtn, some PyExc.typeError) :=
    fun c rtn => rfl
  have hmemUp : ∀ a : Action,
      (a = Action.move (st.pos + ⟨0, 1, 0⟩) ∨ a = Action.moveUp excl) →
      a ∈ (getMoveActionsSrc live st excl).1 →
      (getBlock live st (st.pos + ⟨0, 2, 0⟩) = AIR ∨
        getBlock live st (st.pos + ⟨0, 2, 0⟩) = WATER) := by
    intro a hshape hmem
    by_contra hnc
    simp only [getMoveActionsSrc, hloop] at hmem
    rw [decide_eq_false hnc] at hmem
    simp only [Bool.false_eq_true, if_false, List.nil_append] at hmem
    have : a = Action.moveDown := by
      split at hmem
      · exact List.mem_singleton.1 hmem
      · simp at hmem
    rcases hshape with rfl | rfl <;> exact Action.noConfusion this
  refine ⟨?_, ?_, ?_⟩
  · simp only [getMoveActionsSrc, hloop]
  · intro hs
    constructor
    · exact hmemUp _ (Or.inl rfl)
    · intro hc
      simp only [getMoveActionsSrc, hloop, decide_eq_true hc, if_true, hs]
      simp
  · intro hs
    constructor
    · exact hmemUp _ (Or.inr rfl)
    · intro hc
      simp only [getMoveActionsSrc, hloop, decide_eq_true hc, if_true, hs]
      simp

/-- C7 counterexample.  In the all-air world both cells above the agent's
head are passable, so the claim demands the up-move be offered, but
`_get_move_actions` raises TypeError instead of returning an action list;
and the condition the code evaluates before the failure is the single cell
two above the feet: at `live7` (air at +2, stone at +3) the accumulated
list already holds the up-move although the claim's two-cell condition is
false. -/
theorem claim7_counterexample :
    ((getBlock live9 st7 (st7.pos + ⟨0, 2, 0⟩) = AIR ∨
        getBlock live9 st7 (st7.pos + ⟨0, 2, 0⟩) = WATER) ∧
      (getBlock live9 st7 (st7.pos + ⟨0, 3, 0⟩) = AIR ∨
        getBlock live9 st7 (st7.pos + ⟨0, 3, 0⟩) = WATER)) ∧
    (getMoveActionsSrc live9 st7 none).2 = some PyExc.typeError ∧
    Action.moveUp none ∈ (getMoveActionsSrc live7 st7 none).1 ∧
    ¬((getBlock live7 st7 (st7.pos + ⟨0, 2, 0⟩) = AIR ∨
        getBlock live7 st7 (st7.pos + ⟨0, 2, 0⟩) = WATER) ∧
      (getBlock live7 st7 (st7.pos + ⟨0, 3, 0⟩) = AIR ∨
        getBlock live7 st7 (st7.pos + ⟨0, 3, 0⟩) = WATER)) := by
  decide

/-- C7 witness: in the C8 world (air above, not surrounded by water) the
move-up-and-place action is in the list accumulated before the raise. -/
theorem claim7_up_move_condition_witness :
    Action.moveUp none ∈ (getMoveActionsSrc live8 st8 none).1 :=
  ((claim7_up_move_condition live8 st8 none).2.2 (by rfl)).mpr (by decide)

/-- C8.  The source's `_mine` calls `self.add_to_inv`, an attribute that no
class in the hierarchy defines (the method is `_add_to_inv`), so every mine
raises `AttributeError` after reading the block and before mutating
anything.  As evidently intended — and as the claim describes — mining a
generated target removes the block as seen through the state's view (it
reads as air), adds exactly one unit of its block id to the inventory, and
leaves the position unchanged: checked here for the block of id 5 at
(1,0,0). -/
theorem claim8_mine_effect :
    mineInventoryCall ∉ genericBotMethodNames ∧
    Action.mine ⟨1, 0, 0⟩ ∈ getMineActions live8 st8 ∧
    (mineI live8 st8 ⟨1, 0, 0⟩).2 = none ∧
    getBlock live8 (mineI live8 st8 ⟨1, 0, 0⟩).1 ⟨1, 0, 0⟩ = AIR ∧
    dictGet (mineI live8 st8 ⟨1, 0, 0⟩).1.inv 5 = some 1 ∧
    dictGet st8.inv 5 = none ∧
    (mineI live8 st8 ⟨1, 0, 0⟩).1.pos = st8.pos := by
  decide

/-- C9.  `_ImaginaryBot` overrides `__hash__` (a function of the full
content: position, inventory items, overlay items) but never `__eq__`, so
object equality is identity: two agent states with identical content and
identical hashes still compare unequal, and the engine's closed-set
deduplication therefore identifies states by object identity, not content —
the claim's content-equality law fails. -/
theorem claim9_state_equality_is_identity :
    pyB1.st = pyB2.st ∧ botHashContent pyB1.st = botHashContent pyB2.st ∧
    pyEq pyB1 pyB2 = false :=
  ⟨rfl, rfl, rfl⟩

/-- C1.  Overlay shadowing: a simulated view's `get` returns the overlay entry
whenever one exists for the position, regardless of the live value, and the
live value otherwise; writes only ever touch the overlay. -/
theorem claim1_overlay_shadowing (live : V3 → Int) (st : BotS) (p : V3) :
    (∀ b : Int, dictGet st.changes p = some b → getBlock live st p = b) ∧
    (dictGet st.changes p = none → getBlock live st p = live p) ∧
    (∀ b : Int, getBlock live (setBlock st p b) p = b) ∧
    (∀ b : Int, (setBlock st p b).pos = st.pos ∧ (setBlock st p b).inv = st.inv) := by
  refine ⟨fun b hb => ?_, fun hn => ?_, fun b => ?_, fun b => ⟨rfl, rfl⟩⟩
  · simp [getBlock, hb]
  · simp [getBlock, hn]
  · show getBlock live { st with changes := dictSet st.changes p b } p = b
    have hset : ∀ l : List (V3 × Int), dictGet (dictSet l p b) p = some b := by
      intro l
      induction l with
      | nil => simp [dictSet, dictGet]
      | cons hd tl ih =>
        by_cases h : hd.1 = p
        · simp [dictSet, h, dictGet]
        · simp [dictSet, h, dictGet, ih]
    simp [getBlock, hset]

/-- C1 witness: concrete overlay `[((0,0,0), 5)]` over a live world that is all
stone (`1`), checked at a shadowed and a non-shadowed position. -/
theorem claim1_overlay_shadowing_witness :
    getBlock (fun _ => 1) ⟨⟨0, 0, 0⟩, [], [(⟨0, 0, 0⟩, 5)]⟩ ⟨0, 0, 0⟩ = 5 ∧
    getBlock (fun _ => 1) ⟨⟨0, 0, 0⟩, [], [(⟨0, 0, 0⟩, 5)]⟩ ⟨1, 0, 0⟩ = 1 := by
  constructor
  · exact (claim1_overlay_shadowing (fun _ => 1) ⟨⟨0, 0, 0⟩, [], [(⟨0, 0, 0⟩, 5)]⟩
      ⟨0, 0, 0⟩).1 5 (by decide)
  · exact (claim1_overlay_shadowing (fun _ => 1) ⟨⟨0, 0, 0⟩, [], [(⟨0, 0, 0⟩, 5)]⟩
      ⟨1, 0, 0⟩).2.1 (by decide)

theorem popMin_none {σ α : Type} {f : Node σ α → Nat} {l : List (Node σ α)}
    (h : popMin f l = none) : l = [] := by
  cases l with
  | nil => rfl
  | cons a r =>
    rw [popMin] at h
    rcases h0 : popMin f r with _ | mr
    · rw [h0] at h; simp at h
    · obtain ⟨m, rest2⟩ := mr
      rw [h0] at h
      by_cases hle : f a ≤ f m <;> simp [hle] at h

theorem popMin_decomp {σ α : Type} {f : Node σ α → Nat} :
    ∀ {l : List (Node σ α)} {n : Node σ α} {rest : List (Node σ α)},
      popMin f l = some (n, rest) →
      ∃ l1 l2, l = l1 ++ n :: l2 ∧ rest = l1 ++ l2 := by
  intro l
  induction l with
  | nil => intro n rest h; simp [popMin] at h
  | cons a r ih =>
    intro n rest h
    rw [popMin] at h
    rcases h0 : popMin f r with _ | mr
    · rw [h0] at h
      simp only [Option.some.injEq, Prod.mk.injEq] at h
      obtain ⟨rfl, rfl⟩ := h
      exact ⟨[], r, by simp [popMin_none h0]⟩
    · obtain ⟨m, rest2⟩ := mr
      rw [h0] at h
      dsimp only at h
      by_cases hle : f a ≤ f m
      · rw [if_pos hle] at h
        simp only [Option.some.injEq, Prod.mk.injEq] at h
        obtain ⟨rfl, rfl⟩ := h
        exact ⟨[], r, rfl, rfl⟩
      · rw [if_neg hle] at h
        simp only [Option.some.injEq, Prod.mk.injEq] at h
        obtain ⟨rfl, hrest⟩ := h
        obtain ⟨l1, l2, hl, hr⟩ := ih h0
        refine ⟨a :: l1, l2, by simp [hl], ?_⟩
        rw [← hrest, hr]
        rfl

theorem popMin_min {σ α : Type} {f : Node σ α → Nat} :
    ∀ {l : List (Node σ α)} {n : Node σ α} {rest : List (Node σ α)},
      popMin f l = some (n, rest) → ∀ m ∈ l, f n ≤ f m := by
  intro l
  induction l with
  | nil => intro n rest h; simp [popMin] at h
  | cons a r ih =>
    intro n rest h
    rw [popMin] at h
    rcases h0 : popMin f r with _ | mr
    · rw [h0] at h
      simp only [Option.some.injEq, Prod.mk.injEq] at h
      obtain ⟨rfl, rfl⟩ := h
      intro m hm
      rw [popMin_none h0] at hm
      rcases List.mem_singleton.1 hm with rfl
      exact le_refl _
    · obtain ⟨m0, rest2⟩ := mr
      rw [h0] at h
      dsimp only at h
      by_cases hle : f a ≤ f m0
      · rw [if_pos hle] at h
        simp only [Option.some.injEq, Prod.mk.injEq] at h
        obtain ⟨rfl, rfl⟩ := h
        intro m hm
        rcases List.mem_cons.1 hm with rfl | hm
        · exact le_refl _
        · exact le_trans hle (ih h0 m hm)
      · rw [if_neg hle] at h
        simp only [Option.some.injEq, Prod.mk.injEq] at h
        obtain ⟨rfl, hrest⟩ := h
        intro m hm
        rcases List.mem_cons.1 hm with rfl | hm
        · omega
        · exact ih h0 m hm

theorem cert_le_of_drives {σ α : Type} {p : Problem σ α} (D : σ → Nat)
    (hU : UnitCosts p)
    (hD : ∀ s : σ, ∀ x ∈ p.succ s, D s ≤ x.2.2 + D x.1)
    (hG : ∀ s : σ, p.isGoal s = true → D s = 0)
    {s t : σ} {as : List α} (hd : Drives p s as t) (hg : p.isGoal t = true) :
    D s ≤ as.length := by
  induction hd with
  | nil => simp [hG _ hg]
  | cons hmem htail ih =>
    rename_i s0 t0 u0 a0 c0 as0
    have h2 : D s0 ≤ c0 + D t0 := hD s0 (t0, a0, c0) hmem
    have h1 : c0 = 1 := hU s0 (t0, a0, c0) hmem
    have h3 := ih hg
    simp only [List.length_cons]
    omega

/-- C2 counterexample: on a seven-state unit-cost problem, `hce` is
admissible (it never exceeds the exact goal distance `Dce`), the optimal
cost is 4 and uniform-cost search attains it, but A*-style search with this
(inconsistent) heuristic closes state `A` through the longer route first and
returns a five-action sequence — its total cost does not equal uniform-cost
search's optimum, refuting the claim for merely admissible heuristics. -/
theorem claim2_counterexample :
    UnitCosts Pce ∧ Admissible Pce hce ∧ IsOptCost Pce 4 ∧
    ucs Pce 20 = some (Except.ok [(), (), (), ()]) ∧
    astar Pce hce 20 = some (Except.ok [(), (), (), (), ()]) ∧
    ([(), (), (), ()] : List Unit).length = 4 ∧
    ([(), (), (), (), ()] : List Unit).length ≠ 4 := by
  have hU : UnitCosts Pce := by
    intro s x hx
    revert hx
    revert x
    revert s
    decide
  have hDcert : ∀ (s : CES) (as : List Unit) (t : CES),
      Drives Pce s as t → Pce.isGoal t = true → Dce s ≤ as.length := by
    intro s as t hd hg
    refine cert_le_of_drives Dce hU ?_ ?_ hd hg
    · intro s0 x hx
      revert hx; revert x; revert s0; decide
    · intro s0 hs0
      revert hs0; revert s0; decide
  have hpoint : ∀ s0 : CES, hce s0 ≤ Dce s0 := by decide
  have hAdm : Admissible Pce hce := by
    intro s as t hd hg
    exact le_trans (hpoint s) (hDcert s as t hd hg)
  have hpath : Drives Pce CES.S [(), (), (), ()] CES.G :=
    Drives.cons (p := Pce) (t := CES.X) (c := 1) (by decide)
      (Drives.cons (p := Pce) (t := CES.A) (c := 1) (by decide)
        (Drives.cons (p := Pce) (t := CES.A1) (c := 1) (by decide)
          (Drives.cons (p := Pce) (t := CES.G) (c := 1) (by decide)
            (Drives.nil CES.G))))
  refine ⟨hU, hAdm, ⟨⟨[(), (), (), ()], CES.G, hpath, by decide, rfl⟩, ?_⟩,
    by rfl, by rfl, by decide, by decide⟩
  intro as t hd hg
  have := hDcert CES.S as t hd hg
  simpa [Dce] using this

theorem sinv_init {σ α : Type} (p : Problem σ α) (k : Nat) :
    SInv p k [Node.root p.start] ([] : List σ) := by
  refine ⟨?_, ?_, ?_, ?_, ?_⟩
  · intro n hn
    rcases List.mem_singleton.1 hn with rfl
    exact rfl
  · intro t ht; simp at ht
  · intro t ht; simp at ht
  · intro t ht; simp at ht
  · exact Or.inr ⟨Node.root p.start, List.mem_singleton.2 rfl, rfl, rfl⟩

theorem reachSet_subset_step {σ α : Type} [DecidableEq σ] (p : Problem σ α)
    (n : Nat) : reachSet p n ⊆ reachSet p (n + 1) := by
  intro t ht
  rw [reachSet, stepSet]
  exact Finset.mem_union_left _ ht

theorem reachSet_mono {σ α : Type} [DecidableEq σ] (p : Problem σ α)
    {m n : Nat} (hmn : m ≤ n) : reachSet p m ⊆ reachSet p n := by
  induction hmn with
  | refl => exact subset_rfl
  | @step n2 h2 ih => exact subset_trans ih (reachSet_subset_step p n2)

theorem drives_mem_reachSet {σ α : Type} [DecidableEq σ] {p : Problem σ α} :
    ∀ {as : List α} {t : σ}, Drives p p.start as t → t ∈ reachSet p as.length := by
  intro as
  induction as using List.reverseRecOn with
  | nil =>
    intro t hd
    have heq := drives_nil_eq hd
    subst heq
    simp [reachSet]
  | append_singleton as a ih =>
    intro t hd
    obtain ⟨t2, h1, h2⟩ := drives_split hd
    obtain ⟨c, hmem⟩ := drives_singleton h2
    have ht2 := ih h1
    have hlen : (as ++ [a]).length = as.length + 1 := by simp
    rw [hlen, reachSet, stepSet]
    refine Finset.mem_union.2 (Or.inr (Finset.mem_biUnion.2 ⟨t2, ht2, ?_⟩))
    rw [List.mem_toFinset]
    exact List.mem_map.2 ⟨(t, a, c), hmem, rfl⟩

theorem pop_le {σ α : Type} [DecidableEq σ] {p : Problem σ α} {h : σ → Nat}
    {k : Nat} {sel : List (Node σ α) → Option (Node σ α × List (Node σ α))}
    {J : List (Node σ α) → Prop} (S : SearchSetup p h k sel J)
    {fringe : List (Node σ α)} {closed : List σ}
    (hI : SInv p k fringe closed) (hJ : J fringe)
    {n : Node σ α} {rest : List (Node σ α)} (hs : sel fringe = some (n, rest)) :
    ∀ (as : List α) (t : σ), Drives p p.start as t → t ∉ closed →
      Node.cost n + h (Node.state n) ≤ as.length + h t := by
  intro as
  induction as using List.reverseRecOn with
  | nil =>
    intro t hd ht
    have heq := drives_nil_eq hd
    subst heq
    rcases hI.startIn with hc | ⟨m, hm, hms, hmc⟩
    · exact absurd hc ht
    · have hmin := S.selMin fringe n rest hJ hs m hm
      rw [hms, hmc] at hmin
      simpa using hmin
  | append_singleton as a ih =>
    intro t hd ht
    obtain ⟨t2, h1, h2⟩ := drives_split hd
    obtain ⟨c, hmemc⟩ := drives_singleton h2
    have hlen : (as ++ [a]).length = as.length + 1 := by simp
    by_cases hc2 : t2 ∈ closed
    · rcases hI.expand t2 hc2 (t, a, c) hmemc with hcl | ⟨m, hm, hms, hmb⟩
      · exact absurd hcl ht
      · have hle : Node.cost m ≤ as.length + 1 := hmb as h1
        have hmin := S.selMin fringe n rest hJ hs m hm
        have hms2 : Node.state m = t := hms
        rw [hms2] at hmin
        omega
    · have hih := ih t2 h1 hc2
      have hcons : h t2 ≤ c + h t := S.consistent t2 (t, a, c) hmemc
      have hc1 : c = 1 := S.unit t2 (t, a, c) hmemc
      omega

theorem fringe_nonempty_of_unclosed {σ α : Type} {p : Problem σ α} {k : Nat}
    {fringe : List (Node σ α)} {closed : List σ} (hI : SInv p k fringe closed) :
    ∀ (as : List α) (t : σ), Drives p p.start as t → t ∉ closed → fringe ≠ [] := by
  intro as
  induction as using List.reverseRecOn with
  | nil =>
    intro t hd ht
    have heq := drives_nil_eq hd
    subst heq
    rcases hI.startIn with hc | ⟨m, hm, _⟩
    · exact absurd hc ht
    · intro hemp; rw [hemp] at hm; simp at hm
  | append_singleton as a ih =>
    intro t hd ht
    obtain ⟨t2, h1, h2⟩ := drives_split hd
    obtain ⟨c, hmemc⟩ := drives_singleton h2
    by_cases hc2 : t2 ∈ closed
    · rcases hI.expand t2 hc2 (t, a, c) hmemc with hcl | ⟨m, hm, _⟩
      · exact absurd hcl ht
      · intro hemp; rw [hemp] at hm; simp at hm
    · exact ih t2 h1 hc2

theorem sinv_skip {σ α : Type} [DecidableEq σ] {p : Problem σ α} {h : σ → Nat}
    {k : Nat} {sel : List (Node σ α) → Option (Node σ α × List (Node σ α))}
    {J : List (Node σ α) → Prop} (S : SearchSetup p h k sel J)
    {fringe rest : List (Node σ α)} {closed : List σ} {n : Node σ α}
    (hI : SInv p k fringe closed) (hJ : J fringe)
    (hs : sel fringe = some (n, rest)) (hcl : Node.state n ∈ closed) :
    SInv p k rest closed := by
  obtain ⟨l1, l2, hl, hr⟩ := S.selDecomp fringe n rest hJ hs
  have hsub : ∀ m : Node σ α, m ∈ rest → m ∈ fringe := by
    intro m hm
    rw [hr] at hm
    rw [hl]
    rcases List.mem_append.1 hm with hm | hm
    · exact List.mem_append_left _ hm
    · exact List.mem_append_right _ (List.mem_cons_of_mem _ hm)
  have hcases : ∀ m : Node σ α, m ∈ fringe → m = n ∨ m ∈ rest := by
    intro m hm
    rw [hl] at hm
    rw [hr]
    rcases List.mem_append.1 hm with hm | hm
    · exact Or.inr (List.mem_append_left _ hm)
    · rcases List.mem_cons.1 hm with rfl | hm
      · exact Or.inl rfl
      · exact Or.inr (List.mem_append_right _ hm)
  refine ⟨fun m hm => hI.fringeOkay m (hsub m hm), hI.closedBound,
    hI.closedNotGoal, ?_, ?_⟩
  · intro t ht x hx
    rcases hI.expand t ht x hx with hcl2 | ⟨m, hm, hms, hmb⟩
    · exact Or.inl hcl2
    · rcases hcases m hm with rfl | hm2
      · left; rw [← hms]; exact hcl
      · exact Or.inr ⟨m, hm2, hms, hmb⟩
  · rcases hI.startIn with hc | ⟨m, hm, hms, hmc⟩
    · exact Or.inl hc
    · rcases hcases m hm with rfl | hm2
      · left; rw [← hms]; exact hcl
      · exact Or.inr ⟨m, hm2, hms, hmc⟩

theorem sinv_close {σ α : Type} [DecidableEq σ] {p : Problem σ α} {h : σ → Nat}
    {k : Nat} {sel : List (Node σ α) → Option (Node σ α × List (Node σ α))}
    {J : List (Node σ α) → Prop} (S : SearchSetup p h k sel J)
    {fringe rest : List (Node σ α)} {closed : List σ} {n : Node σ α}
    (hI : SInv p k fringe closed) (hJ : J fringe)
    (hs : sel fringe = some (n, rest)) (hncl : Node.state n ∉ closed)
    (hng : p.isGoal (Node.state n) = false) :
    SInv p k (rest ++ children p n) (Node.state n :: closed) := by
  obtain ⟨l1, l2, hl, hr⟩ := S.selDecomp fringe n rest hJ hs
  have hnmem : n ∈ fringe := by
    rw [hl]; exact List.mem_append_right _ (List.mem_cons_self _ _)
  have hokn : Node.okay p n := hI.fringeOkay n hnmem
  have hsub : ∀ m : Node σ α, m ∈ rest → m ∈ fringe := by
    intro m hm
    rw [hr] at hm
    rw [hl]
    rcases List.mem_append.1 hm with hm | hm
    · exact List.mem_append_left _ hm
    · exact List.mem_append_right _ (List.mem_cons_of_mem _ hm)
  have hcases : ∀ m : Node σ α, m ∈ fringe → m = n ∨ m ∈ rest := by
    intro m hm
    rw [hl] at hm
    rw [hr]
    rcases List.mem_append.1 hm with hm | hm
    · exact Or.inr (List.mem_append_left _ hm)
    · rcases List.mem_cons.1 hm with rfl | hm
      · exact Or.inl rfl
      · exact Or.inr (List.mem_append_right _ hm)
  have hkey : ∀ as : List α, Drives p p.start as (Node.state n) →
      Node.cost n ≤ as.length := by
    intro as hd
    have := pop_le S hI hJ hs as (Node.state n) hd hncl
    omega
  obtain ⟨asopt, topt, hdopt, hgopt, hlenopt⟩ := S.kopt.1
  have htoptncl : topt ∉ closed := fun hc => by
    have := hI.closedNotGoal topt hc
    rw [this] at hgopt
    exact Bool.noConfusion hgopt
  have hcostk : Node.cost n ≤ k := by
    have h1 := pop_le S hI hJ hs asopt topt hdopt htoptncl
    have hz : h topt = 0 := S.goalZero topt hgopt
    omega
  refine ⟨?_, ?_, ?_, ?_, ?_⟩
  · intro m hm
    rcases List.mem_append.1 hm with hm | hm
    · exact hI.fringeOkay m (hsub m hm)
    · exact okay_children hokn hm
  · intro t ht
    rcases List.mem_cons.1 ht with rfl | ht
    · refine ⟨Node.plan n, okay_plan_drives hokn, ?_⟩
      rw [okay_plan_length S.unit hokn]
      exact hcostk
    · exact hI.closedBound t ht
  · intro t ht
    rcases List.mem_cons.1 ht with rfl | ht
    · exact hng
    · exact hI.closedNotGoal t ht
  · intro t ht x hx
    rcases List.mem_cons.1 ht with rfl | ht
    · refine Or.inr ⟨Node.child x.1 x.2.1 (Node.cost n + x.2.2) n, ?_, rfl, ?_⟩
      · exact List.mem_append_right _ (List.mem_map.2 ⟨x, hx, rfl⟩)
      · intro as hd
        have hx1 : x.2.2 = 1 := S.unit _ x hx
        have h2 := hkey as hd
        show Node.cost n + x.2.2 ≤ as.length + 1
        omega
    · rcases hI.expand t ht x hx with hcl2 | ⟨m, hm, hms, hmb⟩
      · exact Or.inl (List.mem_cons_of_mem _ hcl2)
      · rcases hcases m hm with rfl | hm2
        · left; rw [← hms]; exact List.mem_cons_self _ _
        · exact Or.inr ⟨m, List.mem_append_left _ hm2, hms, hmb⟩
  · rcases hI.startIn with hc | ⟨m, hm, hms, hmc⟩
    · exact Or.inl (List.mem_cons_of_mem _ hc)
    · rcases hcases m hm with rfl | hm2
      · left; rw [← hms]; exact List.mem_cons_self _ _
      · exact Or.inr ⟨m, List.mem_append_left _ hm2, hms, hmc⟩

theorem loop_ok {σ α : Type} [DecidableEq σ] {p : Problem σ α} {h : σ → Nat}
    {k : Nat} {sel : List (Node σ α) → Option (Node σ α × List (Node σ α))}
    {J : List (Node σ α) → Prop} (S : SearchSetup p h k sel J) :
    ∀ (N : Nat) (closed : List σ),
      ((reachSet p k).filter fun t => t ∉ closed).card ≤ N →
      ∀ (F : Nat) (fringe : List (Node σ α)), fringe.length ≤ F →
        SInv p k fringe closed → J fringe →
        ∃ (fuel : Nat) (plan : List α),
          searchLoop p sel fuel fringe closed = some (Except.ok plan) ∧
          plan.length = k ∧ ∃ t, Drives p p.start plan t ∧ p.isGoal t = true := by
  intro N
  induction N with
  | zero =>
    intro closed hN F fringe hF hI hJ
    exfalso
    obtain ⟨asopt, topt, hdopt, hgopt, hlenopt⟩ := S.kopt.1
    have htoptncl : topt ∉ closed := fun hc => by
      have := hI.closedNotGoal topt hc
      rw [this] at hgopt
      exact Bool.noConfusion hgopt
    have hmem : topt ∈ (reachSet p k).filter fun t => t ∉ closed := by
      refine Finset.mem_filter.2 ⟨?_, htoptncl⟩
      have h2 := drives_mem_reachSet hdopt
      rw [hlenopt] at h2
      exact h2
    have := Finset.card_pos.2 ⟨topt, hmem⟩
    omega
  | succ N ihN =>
    intro closed hN F
    induction F with
    | zero =>
      intro fringe hF hI hJ
      exfalso
      have hemp : fringe = [] := List.length_eq_zero.1 (Nat.le_zero.1 hF)
      obtain ⟨asopt, topt, hdopt, hgopt, hlenopt⟩ := S.kopt.1
      have htoptncl : topt ∉ closed := fun hc => by
        have := hI.closedNotGoal topt hc
        rw [this] at hgopt
        exact Bool.noConfusion hgopt
      exact fringe_nonempty_of_unclosed hI asopt topt hdopt htoptncl hemp
    | succ F ihF =>
      intro fringe hF hI hJ
      rcases hs : sel fringe with _ | nr
      · exfalso
        have hemp := S.selNone fringe hJ hs
        obtain ⟨asopt, topt, hdopt, hgopt, hlenopt⟩ := S.kopt.1
        have htoptncl : topt ∉ closed := fun hc => by
          have := hI.closedNotGoal topt hc
          rw [this] at hgopt
          exact Bool.noConfusion hgopt
        exact fringe_nonempty_of_unclosed hI asopt topt hdopt htoptncl hemp
      · obtain ⟨n, rest⟩ := nr
        obtain ⟨l1, l2, hl, hr⟩ := S.selDecomp fringe n rest hJ hs
        have hnmem : n ∈ fringe := by
          rw [hl]; exact List.mem_append_right _ (List.mem_cons_self _ _)
        have hrestlen : rest.length ≤ F := by
          have hfl : fringe.length = rest.length + 1 := by
            rw [hl, hr]
            simp only [List.length_append, List.length_cons]
            omega
          omega
        by_cases hg : p.isGoal (Node.state n) = true
        · have hokn := hI.fringeOkay n hnmem
          have hdr := okay_plan_drives hokn
          have hplen := okay_plan_length S.unit hokn
          obtain ⟨asopt, topt, hdopt, hgopt, hlenopt⟩ := S.kopt.1
          have htoptncl : topt ∉ closed := fun hc => by
            have := hI.closedNotGoal topt hc
            rw [this] at hgopt
            exact Bool.noConfusion hgopt
          have h1 := pop_le S hI hJ hs asopt topt hdopt htoptncl
          have hz1 : h topt = 0 := S.goalZero topt hgopt
          have hz2 : h (Node.state n) = 0 := S.goalZero _ hg
          have h2 : k ≤ (Node.plan n).length := S.kopt.2 _ _ hdr hg
          refine ⟨1, Node.plan n, ?_, ?_, ⟨Node.state n, hdr, hg⟩⟩
          · simp [searchLoop, hs, hg]
          · omega
        · by_cases hcl : Node.state n ∈ closed
          · obtain ⟨fuel, plan, heq, hplen, hgoal⟩ :=
              ihF rest hrestlen (sinv_skip S hI hJ hs hcl)
                (S.jPop fringe n rest hJ hs)
            refine ⟨fuel + 1, plan, ?_, hplen, hgoal⟩
            simp [searchLoop, hs, hg, hcl, heq]
          · have hokn := hI.fringeOkay n hnmem
            have hng : p.isGoal (Node.state n) = false := by
              revert hg
              cases p.isGoal (Node.state n) <;> simp
            have hkey : Node.cost n ≤ k := by
              obtain ⟨asopt, topt, hdopt, hgopt, hlenopt⟩ := S.kopt.1
              have htoptncl : topt ∉ closed := fun hc => by
                have := hI.closedNotGoal topt hc
                rw [this] at hgopt
                exact Bool.noConfusion hgopt
              have h1 := pop_le S hI hJ hs asopt topt hdopt htoptncl
              have hz1 : h topt = 0 := S.goalZero topt hgopt
              omega
            have hreach : Node.state n ∈ reachSet p k := by
              have hdr := okay_plan_drives hokn
              have hplen := okay_plan_length S.unit hokn
              have h2 := drives_mem_reachSet hdr
              rw [hplen] at h2
              exact reachSet_mono p hkey h2
            have hcard :
                ((reachSet p k).filter fun t => t ∉ (Node.state n :: closed)).card ≤ N := by
              have hmem2 : Node.state n ∈ (reachSet p k).filter fun t => t ∉ closed :=
                Finset.mem_filter.2 ⟨hreach, hcl⟩
              have hss : ((reachSet p k).filter fun t => t ∉ (Node.state n :: closed)) ⊆
                  (((reachSet p k).filter fun t => t ∉ closed).erase (Node.state n)) := by
                intro t ht
                rw [Finset.mem_filter] at ht
                rw [Finset.mem_erase]
                refine ⟨?_, Finset.mem_filter.2 ⟨ht.1, fun hc =>
                  ht.2 (List.mem_cons_of_mem _ hc)⟩⟩
                intro hteq
                exact ht.2 (hteq ▸ List.mem_cons_self _ _)
              have h3 := Finset.card_le_card hss
              rw [Finset.card_erase_of_mem hmem2] at h3
              omega
            obtain ⟨fuel, plan, heq, hplen, hgoal⟩ :=
              ihN (Node.state n :: closed) hcard (rest ++ children p n).length
                (rest ++ children p n) (le_refl _)
                (sinv_close S hI hJ hs hcl hng)
                (S.jPush fringe n rest hJ hs)
            refine ⟨fuel + 1, plan, ?_, hplen, hgoal⟩
            simp [searchLoop, hs, hg, hcl, heq]

theorem graphSearch_optimal {σ α : Type} [DecidableEq σ] {p : Problem σ α}
    {h : σ → Nat} {k : Nat}
    {sel : List (Node σ α) → Option (Node σ α × List (Node σ α))}
    {J : List (Node σ α) → Prop} (S : SearchSetup p h k sel J) :
    ∃ (fuel : Nat) (plan : List α),
      graphSearch p sel fuel = some (Except.ok plan) ∧ plan.length = k ∧
      ∃ t, Drives p p.start plan t ∧ p.isGoal t = true :=
  loop_ok S (((reachSet p k).filter fun t => t ∉ ([] : List σ)).card) []
    (le_refl _) 1 [Node.root p.start] (by simp) (sinv_init p k) S.jInit

theorem children_cost_of_unit {σ α : Type} {p : Problem σ α} (hU : UnitCosts p)
    {n m : Node σ α} (hm : m ∈ children p n) : Node.cost m = Node.cost n + 1 := by
  simp only [children, List.mem_map] at hm
  obtain ⟨x, hx, rfl⟩ := hm
  show Node.cost n + x.2.2 = Node.cost n + 1
  rw [hU _ x hx]

theorem pairwise_of_all {β : Type} {R : β → β → Prop} {l : List β}
    (hall : ∀ a ∈ l, ∀ b ∈ l, R a b) : l.Pairwise R := by
  induction l with
  | nil => exact List.Pairwise.nil
  | cons x xs ih =>
    refine List.pairwise_cons.2
      ⟨fun b hb => hall x (List.mem_cons_self _ _) b (List.mem_cons_of_mem _ hb),
        ih fun a ha b hb =>
          hall a (List.mem_cons_of_mem _ ha) b (List.mem_cons_of_mem _ hb)⟩

theorem ucs_setup {σ α : Type} [DecidableEq σ] (p : Problem σ α) (k : Nat)
    (hU : UnitCosts p) (hk : IsOptCost p k) :
    SearchSetup p (fun _ => 0) k (popMin fun n : Node σ α => Node.cost n)
      (fun _ => True) := by
  refine ⟨hU, ?_, fun s hs => rfl, hk, trivial, ?_, ?_, ?_, ?_, ?_⟩
  · intro s x hx; simp
  · intro l _ hnone; exact popMin_none hnone
  · intro l n rest _ hs; exact popMin_decomp hs
  · intro l n rest _ hs m hm
    have := popMin_min hs m hm
    simpa using this
  · intro l n rest _ _; trivial
  · intro l n rest _ _; trivial

theorem astar_setup {σ α : Type} [DecidableEq σ] (p : Problem σ α) (k : Nat)
    (hh : σ → Nat) (hU : UnitCosts p) (hk : IsOptCost p k)
    (hc : Consistent p hh) (hz : GoalZero p hh) :
    SearchSetup p hh k
      (popMin fun n : Node σ α => Node.cost n + hh (Node.state n))
      (fun _ => True) := by
  refine ⟨hU, hc, hz, hk, trivial, ?_, ?_, ?_, ?_, ?_⟩
  · intro l _ hnone; exact popMin_none hnone
  · intro l n rest _ hs; exact popMin_decomp hs
  · intro l n rest _ hs m hm; exact popMin_min hs m hm
  · intro l n rest _ _; trivial
  · intro l n rest _ _; trivial

theorem bfs_setup {σ α : Type} [DecidableEq σ] (p : Problem σ α) (k : Nat)
    (hU : UnitCosts p) (hk : IsOptCost p k) :
    SearchSetup p (fun _ => 0) k popFront QInv := by
  refine ⟨hU, ?_, fun s hs => rfl, hk, ?_, ?_, ?_, ?_, ?_, ?_⟩
  · intro s x hx; simp
  · constructor
    · exact List.pairwise_singleton _ _
    · intro a ha b hb
      rcases List.mem_singleton.1 ha with rfl
      rcases List.mem_singleton.1 hb with rfl
      omega
  · intro l _ hnone
    cases l with
    | nil => rfl
    | cons a r => simp [popFront] at hnone
  · intro l n rest _ hs
    cases l with
    | nil => simp [popFront] at hs
    | cons a r =>
      simp only [popFront, Option.some.injEq, Prod.mk.injEq] at hs
      obtain ⟨rfl, rfl⟩ := hs
      exact ⟨[], r, rfl, rfl⟩
  · intro l n rest hJ hs m hm
    cases l with
    | nil => simp [popFront] at hs
    | cons a r =>
      simp only [popFront, Option.some.injEq, Prod.mk.injEq] at hs
      obtain ⟨rfl, rfl⟩ := hs
      rcases List.mem_cons.1 hm with rfl | hm
      · simp
      · have := (List.pairwise_cons.1 hJ.1).1 m hm
        simpa using this
  · intro l n rest hJ hs
    cases l with
    | nil => simp [popFront] at hs
    | cons a r =>
      simp only [popFront, Option.some.injEq, Prod.mk.injEq] at hs
      obtain ⟨rfl, rfl⟩ := hs
      exact ⟨(List.pairwise_cons.1 hJ.1).2,
        fun x hx y hy => hJ.2 x (List.mem_cons_of_mem _ hx) y
          (List.mem_cons_of_mem _ hy)⟩
  · intro l n rest hJ hs
    cases l with
    | nil => simp [popFront] at hs
    | cons a r =>
      simp only [popFront, Option.some.injEq, Prod.mk.injEq] at hs
      obtain ⟨rfl, rfl⟩ := hs
      have hhead : ∀ m ∈ r, Node.cost a ≤ Node.cost m :=
        (List.pairwise_cons.1 hJ.1).1
      have hrestpw : r.Pairwise fun u v => Node.cost u ≤ Node.cost v :=
        (List.pairwise_cons.1 hJ.1).2
      have hwithin : ∀ x ∈ a :: r, ∀ y ∈ a :: r,
          Node.cost x ≤ Node.cost y + 1 := hJ.2
      have hchild : ∀ m ∈ children p a, Node.cost m = Node.cost a + 1 :=
        fun m hm => children_cost_of_unit hU hm
      constructor
      · rw [List.pairwise_append]
        refine ⟨hrestpw, pairwise_of_all fun u hu v hv => ?_, ?_⟩
        · rw [hchild u hu, hchild v hv]
        · intro u hu v hv
          have h1 := hwithin u (List.mem_cons_of_mem _ hu) a (List.mem_cons_self _ _)
          rw [hchild v hv]
          omega
      · intro x hx y hy
        rcases List.mem_append.1 hx with hx1 | hx1 <;>
          rcases List.mem_append.1 hy with hy1 | hy1
        · exact hwithin x (List.mem_cons_of_mem _ hx1) y (List.mem_cons_of_mem _ hy1)
        · have h1 := hwithin x (List.mem_cons_of_mem _ hx1) a (List.mem_cons_self _ _)
          rw [hchild y hy1]
          omega
        · have h1 := hhead y hy1
          rw [hchild x hx1]
          omega
        · rw [hchild x hx1, hchild y hy1]
          omega

theorem exists_isOptCost {σ α : Type} (p : Problem σ α)
    (hReach : ∃ (as : List α) (t : σ), Drives p p.start as t ∧ p.isGoal t = true) :
    ∃ k, IsOptCost p k := by
  classical
  have hex : ∃ n : Nat, ∃ (as : List α) (t : σ),
      Drives p p.start as t ∧ p.isGoal t = true ∧ as.length = n := by
    obtain ⟨as, t, h1, h2⟩ := hReach
    exact ⟨as.length, as, t, h1, h2, rfl⟩
  refine ⟨Nat.find hex, Nat.find_spec hex, ?_⟩
  intro as t h1 h2
  exact Nat.find_min' hex ⟨as, t, h1, h2, rfl⟩

/-- C2 (amended).  On every search problem with unit step costs and a
reachable goal there is an optimal cost `k` such that breadth-first search
and uniform-cost search each return a goal-reaching action sequence of the
minimal length `k` (so their lengths are equal), and A*-style best-first
search with any *consistent* goal-vanishing heuristic returns a sequence
whose total cost also equals uniform-cost search's optimal cost `k`.
(Admissibility alone is not enough for this engine, which never reopens
closed states — see the counterexample.) -/
theorem claim2_optimality_amended {σ α : Type} [DecidableEq σ] (p : Problem σ α)
    (hU : UnitCosts p)
    (hReach : ∃ (as : List α) (t : σ), Drives p p.start as t ∧ p.isGoal t = true) :
    ∃ k : Nat, IsOptCost p k ∧
      (∃ (fuel : Nat) (plan : List α), bfs p fuel = some (Except.ok plan) ∧
        plan.length = k ∧ ∃ t, Drives p p.start plan t ∧ p.isGoal t = true) ∧
      (∃ (fuel : Nat) (plan : List α), ucs p fuel = some (Except.ok plan) ∧
        plan.length = k ∧ ∃ t, Drives p p.start plan t ∧ p.isGoal t = true) ∧
      (∀ hh : σ → Nat, Consistent p hh → GoalZero p hh →
        ∃ (fuel : Nat) (plan : List α), astar p hh fuel = some (Except.ok plan) ∧
          plan.length = k ∧ ∃ t, Drives p p.start plan t ∧ p.isGoal t = true) := by
  obtain ⟨k, hk⟩ := exists_isOptCost p hReach
  refine ⟨k, hk, ?_, ?_, ?_⟩
  · exact graphSearch_optimal (bfs_setup p k hU hk)
  · exact graphSearch_optimal (ucs_setup p k hU hk)
  · intro hh hc hz
    exact graphSearch_optimal (astar_setup p k hh hU hk hc hz)

/-- C2 witness: the one-step unit-cost problem `pW`, whose optimal cost is 1. -/
theorem claim2_optimality_amended_witness :
    ∃ k : Nat, IsOptCost pW k ∧
      (∃ (fuel : Nat) (plan : List Unit), bfs pW fuel = some (Except.ok plan) ∧
        plan.length = k ∧ ∃ t, Drives pW pW.start plan t ∧ pW.isGoal t = true) ∧
      (∃ (fuel : Nat) (plan : List Unit), ucs pW fuel = some (Except.ok plan) ∧
        plan.length = k ∧ ∃ t, Drives pW pW.start plan t ∧ pW.isGoal t = true) ∧
      (∀ hh : Bool → Nat, Consistent pW hh → GoalZero pW hh →
        ∃ (fuel : Nat) (plan : List Unit), astar pW hh fuel = some (Except.ok plan) ∧
          plan.length = k ∧ ∃ t, Drives pW pW.start plan t ∧ pW.isGoal t = true) :=
  claim2_optimality_amended pW (by unfold UnitCosts; decide)
    ⟨[()], true, Drives.cons (p := pW) (c := 1) (by decide) (Drives.nil true), rfl⟩

end MCBot
